import Mathlib

/-!
Shallow embedding of `glmhmm/glm_hmm.py` (class `GLMHMM`), the EM fitting
engine of a GLM-HMM.

Conventions used throughout:
* numpy arrays become total functions (`ℕ → ℚ`, curried for higher rank);
  machine floats become exact rationals;
* the transcendental functions `np.log` and `np.exp` are carried as explicit
  function parameters `lg` and `ex`, so every structural fact proved here
  holds for the actual real-valued log/exp as well;
* fallible numpy operations (reshape with a size mismatch, division by zero)
  are embedded with `Option`, `none` standing for the raised Python exception;
* code of the repository that is not part of the `GLMHMM` class itself (the
  `HMM` parent class and the per-state GLM solver) is either modelled from
  the spec (forward/backward pass, whose recursions §4.1/§4.2 of the spec
  give exactly) or carried as an opaque collaborator parameter.
-/

namespace GLMHMMSpec

/-! ## One-hot encoding inside `_updateObservations` (source lines 117–120)

`yint = y.astype(int); yy = np.zeros((yint.shape[0], yint.max()+1));
 yy[np.arange(yint.shape[0]), yint] = 1`.
-/

/-- `yint.max()` of the observation vector: numpy's max over the array
(the array must be nonempty, which the claims assume). For a list of
naturals this is the fold of `max` from `0`. -/
def yMax (y : List ℕ) : ℕ := y.foldl max 0

/-- The one-hot indicator matrix `yy` built in `_updateObservations`:
`y.length` rows and `yMax y + 1` columns, row `t` having a `1` exactly in
column `y t`. -/
def oneHotMatrix (y : List ℕ) : List (List ℚ) :=
  y.map (fun yt => (List.range (yMax y + 1)).map (fun j => if j = yt then (1 : ℚ) else 0))

/-! ## The scaled forward recursion

`HMM.forwardPass` itself is not among the repository sources (only the
`GLMHMM` subclass is), but the very same recursion is written out inside
`computeVariance.logLikelihood` (source lines 278–293), and spec §4.1 gives
it verbatim with an extra `pi0` factor at `t = 0`.  We define the
unnormalized joint `fwJoint` once, with an explicit `pi0`;
`logLikelihood`'s copy is the instance `pi0 = fun _ => 1` (its first bin is
`pxz = phi[:,0,y[0]]`, with no prior factor). -/

/-- Unnormalized forward joint: `fwJoint t z` is the value whose
normalization over `z < k` gives `alpha[t]`.
`t = 0`: `phi[0,z,y 0] * pi0 z`; `t+1`:
`phi[t+1,z,y (t+1)] * (alpha[t] ⬝ A)_z` where `alpha[t] = fwJoint t / cs t`. -/
def fwJoint (k : ℕ) (y : ℕ → ℕ) (A : ℕ → ℕ → ℚ) (phi : ℕ → ℕ → ℕ → ℚ)
    (pi0 : ℕ → ℚ) : ℕ → ℕ → ℚ
  | 0, z => phi 0 z (y 0) * pi0 z
  | t+1, z =>
      phi (t+1) z (y (t+1)) *
        ∑ i ∈ Finset.range k,
          (fwJoint k y A phi pi0 t i / ∑ j ∈ Finset.range k, fwJoint k y A phi pi0 t j) * A i z

/-- Scaling constant `cs t`: the normalizer of the forward joint. -/
def forwardCs (k : ℕ) (y : ℕ → ℕ) (A : ℕ → ℕ → ℚ) (phi : ℕ → ℕ → ℕ → ℚ)
    (pi0 : ℕ → ℚ) (t : ℕ) : ℚ :=
  ∑ z ∈ Finset.range k, fwJoint k y A phi pi0 t z

/-- Filtered state distribution `alpha t z = fwJoint t z / cs t`. -/
def forwardAlpha (k : ℕ) (y : ℕ → ℕ) (A : ℕ → ℕ → ℚ) (phi : ℕ → ℕ → ℕ → ℚ)
    (pi0 : ℕ → ℚ) (t z : ℕ) : ℚ :=
  fwJoint k y A phi pi0 t z / forwardCs k y A phi pi0 t

/-- Per-slice log-likelihood `∑_{t<len} log (cs t)`, with the log carried
as the parameter `lg`. -/
def forwardLL (lg : ℚ → ℚ) (len k : ℕ) (y : ℕ → ℕ) (A : ℕ → ℕ → ℚ)
    (phi : ℕ → ℕ → ℕ → ℚ) (pi0 : ℕ → ℚ) : ℚ :=
  ∑ t ∈ Finset.range len, lg (forwardCs k y A phi pi0 t)

/-! ## `computeVariance` (source lines 235–311) and its inner `logLikelihood` -/

/-- Unflattening of the transition matrix inside `logLikelihood`
(source lines 257–261): the first `k*(k-1)` entries of the flat vector are
reshaped row-major into a `k × (k-1)` block, and the last column of each row
is `1` minus the sum of that row's first `k-1` entries. -/
def unflattenA (k : ℕ) (p : List ℚ) : ℕ → ℕ → ℚ := fun i j =>
  if j < k - 1 then p.getD (i * (k-1) + j) 0
  else if j = k - 1 then 1 - ∑ j' ∈ Finset.range (k-1), p.getD (i * (k-1) + j') 0
  else 0

/-- Unflattening of the weights inside `logLikelihood` (source lines
263–265): the entries after the first `k*(k-1)` are reshaped row-major into
shape `(k, d, c-1)`. -/
def unflattenW (k d c : ℕ) (p : List ℚ) : ℕ → ℕ → ℕ → ℚ := fun z i j =>
  if j < c - 1 then p.getD (k*(k-1) + z*(d*(c-1)) + i*(c-1) + j) 0 else 0

/-- The multinomial-logit activations of `logLikelihood` (source lines
269–272): `exp(x @ w_z)` for the first `c-1` categories, a column of ones
appended for the last. `np.exp` is carried as the parameter `ex`. -/
def cvActivation (ex : ℚ → ℚ) (d c : ℕ) (x : ℕ → ℕ → ℚ) (w : ℕ → ℕ → ℕ → ℚ)
    (z t j : ℕ) : ℚ :=
  if j < c - 1 then ex (∑ i ∈ Finset.range d, x t i * w z i j)
  else if j = c - 1 then 1 else 0

/-- The normalized emission probabilities of `logLikelihood` (source lines
273–274): each activation divided by the sum of the `c` activations of its
time bin and state. -/
def cvPhi (ex : ℚ → ℚ) (d c : ℕ) (x : ℕ → ℕ → ℚ) (w : ℕ → ℕ → ℕ → ℚ)
    (z t j : ℕ) : ℚ :=
  cvActivation ex d c x w z t j / ∑ j' ∈ Finset.range c, cvActivation ex d c x w z t j'

/-- `npa.sum(w ** 2)` over the reshaped `(k, d, c-1)` weight block
(source line 295). -/
def cvWSumSq (k d c : ℕ) (p : List ℚ) : ℚ :=
  ∑ z ∈ Finset.range k, ∑ i ∈ Finset.range d, ∑ j ∈ Finset.range (c-1),
    (unflattenW k d c p z i j)^2

/-- The inner `logLikelihood(params_flat, y, x)` of `computeVariance`
(source lines 255–295).  `none` stands for a raised Python exception:
a `ValueError` when the slice of length `min p.length (k*(k-1))` cannot be
reshaped into `k × (k-1)`, a `ValueError` when the remaining
`p.length - k*(k-1)` entries cannot be reshaped into `(k, d, c-1)`, and a
`ZeroDivisionError` when `2 * gaussPrior**2 = 0` (the penalty term
`1/(2*gaussPrior**2) * sum(w**2)` of line 295 is evaluated unconditionally).
Otherwise the value is `-∑_{t<n} log cs_t` plus that penalty, `cs` being the
scaled forward recursion run on the reconstructed parameters with no prior
factor at `t = 0`. -/
def logLikelihoodCV (lg ex : ℚ → ℚ) (k d c nn : ℕ) (y : ℕ → ℕ) (x : ℕ → ℕ → ℚ)
    (gaussPrior : ℚ) (p : List ℚ) : Option ℚ :=
  if min p.length (k*(k-1)) ≠ k*(k-1) then none
  else if p.length - k*(k-1) ≠ k*d*(c-1) then none
  else if 2*gaussPrior^2 = 0 then none
  else some
    (-(∑ t ∈ Finset.range nn,
        lg (forwardCs k y (unflattenA k p)
            (fun t z j => cvPhi ex d c x (unflattenW k d c p) z t j) (fun _ => 1) t))
      + 1/(2*gaussPrior^2) * cvWSumSq k d c p)

/-- The flat parameter vector built by `computeVariance` (source lines
297–300): the first `k-1` columns of each row of `A`, row-major, followed by
the row-major flattening of the FULL `k × d × c` weight tensor
(`w.flatten(order='C')` — all `c` category slices, not `c-1`). -/
def paramsFlatCV (k d c : ℕ) (A : ℕ → ℕ → ℚ) (w : ℕ → ℕ → ℕ → ℚ) : List ℚ :=
  (((List.range k).map (fun i => (List.range (k-1)).map (fun j => A i j))).flatten) ++
  (((List.range k).map
      (fun z => ((List.range d).map
        (fun i => (List.range c).map (fun j => w z i j))).flatten)).flatten)

/-! ## Backward pass

Modelled from the spec: `HMM.backwardPass` (the `HMM` parent class is not in
the repository sources).  Spec §4.2: `beta[T-1] = 1`;
`beta[t] = (phi[t+1,:,y_{t+1}] * beta[t+1]) @ A.T / cs[t+1]`; the smoothed
posterior is `pBack[t] = alpha[t] * beta[t]`.  (The third output `zhatBack`
of the source call is never used by `fit` nor returned, and the spec does
not define it; it is omitted.) -/

/-- `bwBetaRev m z` is `beta[len-1-m, z]`: the backward recursion indexed
from the end of the slice, so that it is structural in `m`. -/
def bwBetaRev (k len : ℕ) (y : ℕ → ℕ) (A : ℕ → ℕ → ℚ) (phi : ℕ → ℕ → ℕ → ℚ)
    (pi0 : ℕ → ℚ) : ℕ → ℕ → ℚ
  | 0, _ => 1
  | m+1, z =>
      (∑ j ∈ Finset.range k,
          A z j * phi (len-1-m) j (y (len-1-m)) * bwBetaRev k len y A phi pi0 m j) /
        forwardCs k y A phi pi0 (len-1-m)

/-- `beta[t]` on a slice of length `len`. -/
def bwBeta (k len : ℕ) (y : ℕ → ℕ) (A : ℕ → ℕ → ℚ) (phi : ℕ → ℕ → ℕ → ℚ)
    (pi0 : ℕ → ℚ) (t z : ℕ) : ℚ :=
  bwBetaRev k len y A phi pi0 (len - 1 - t) z

/-- Smoothed posterior `pBack[t] = alpha[t] * beta[t]` (spec §4.2). -/
def pBackArr (k len : ℕ) (y : ℕ → ℕ) (A : ℕ → ℕ → ℚ) (phi : ℕ → ℕ → ℕ → ℚ)
    (pi0 : ℕ → ℚ) (t z : ℕ) : ℚ :=
  forwardAlpha k y A phi pi0 t z * bwBeta k len y A phi pi0 t z

/-! ## Session slicing and stitching (source lines 196–219)

`fit` runs the E step separately on each half-open session
`[sess[s], sess[s+1])` and assigns the per-session results back into the
full-length arrays at that index range, later sessions overwriting earlier
ones exactly as sequential numpy slice assignment does. -/

/-- `sess[s]` with numpy-free total indexing. -/
def sessStart (sess : List ℕ) (s : ℕ) : ℕ := sess.getD s 0

/-- Length of session `s`. -/
def sessLen (sess : List ℕ) (s : ℕ) : ℕ := sessStart sess (s+1) - sessStart sess s

/-- The observation slice `y[sess[s]:sess[s+1]]` as a shifted function. -/
def sessY (y : List ℕ) (sess : List ℕ) (s : ℕ) : ℕ → ℕ :=
  fun t => y.getD (sessStart sess s + t) 0

/-- The emission slice `phi[sess[s]:sess[s+1],:,:]` as a shifted function. -/
def sessPhi (phi : ℕ → ℕ → ℕ → ℚ) (sess : List ℕ) (s : ℕ) : ℕ → ℕ → ℕ → ℚ :=
  fun t => phi (sessStart sess s + t)

/-- Sequentially assign per-session rows `g s` into an initially-zero
full-length array: `stitchGo sess g m init` is the array after the
assignments of sessions `0, …, m-1`, the loop body being
`arr[sess[s]:sess[s+1]] = g s`. -/
def stitchGo {α : Type} (sess : List ℕ) (g : ℕ → ℕ → α) : ℕ → (ℕ → α) → (ℕ → α)
  | 0, acc => acc
  | s+1, acc =>
      fun t =>
        if sessStart sess s ≤ t ∧ t < sessStart sess (s+1) then g s (t - sessStart sess s)
        else stitchGo sess g s acc t

/-- The full-length array after all `sess.length - 1` session assignments,
starting from the zero-initialized array `init`. -/
def stitched {α : Type} (sess : List ℕ) (g : ℕ → ℕ → α) (init : ℕ → α) : ℕ → α :=
  stitchGo sess g (sess.length - 1) init

/-! ## The EM state and the collaborator contracts -/

/-- The mutable parameters of one fit: transitions `A`, weights `w`, the
derived emission cache `phi`, and the initial-state distribution `pi0`
(`none` is Python's `None`, which the forward pass resolves to uniform,
spec §4.1). -/
structure EMSt where
  A : ℕ → ℕ → ℚ
  w : ℕ → ℕ → ℕ → ℚ
  phi : ℕ → ℕ → ℕ → ℚ
  pi0 : Option (ℕ → ℚ)

/-- The external collaborators of `fit` (spec §6): the transition M-step
`HMM._updateTransitions(y, alpha, beta, cs, A, phi)`, the per-state solver
`glm.fit(x, w_k, y_onehot, compHess, gammas_k, gaussianPrior)`, the
initial-state M-step `HMM._updateInitStates(gammas)`, and the emission link
`glm.observations.compObs(x_t, w_k)`.  None of these live in the repository
sources; `fit`'s orchestration — what the claims are about — is proved for
every choice of them. -/
structure Collab where
  updTrans : List ℕ → (ℕ → ℕ → ℚ) → (ℕ → ℕ → ℚ) → (ℕ → ℚ) → (ℕ → ℕ → ℚ) →
    (ℕ → ℕ → ℕ → ℚ) → (ℕ → ℕ → ℚ)
  glmFit : (ℕ → ℕ → ℚ) → (ℕ → ℕ → ℚ) → List (List ℚ) → Bool → (ℕ → ℚ) → ℚ →
    ((ℕ → ℕ → ℚ) × (ℕ → ℕ → ℚ))
  updInit : (ℕ → ℕ → ℚ) → (ℕ → ℚ)
  compObs : (ℕ → ℚ) → (ℕ → ℕ → ℚ) → (ℕ → ℚ)

/-- `_updateObservations` (source lines 100–128): build the one-hot `yy`
once, then for each state `z < k` call the GLM solver on the old `w z` with
the responsibility column `gammas[:,z]`, collecting the new weight slice and
the new emission slice `phi[:,z,:]` (states `z ≥ k` do not exist in the
numpy tensors; the function embedding leaves `w` unchanged and `phi` zero
there, matching the zero-initialization of `self.phi`). -/
def updateObservations (glmFit : (ℕ → ℕ → ℚ) → (ℕ → ℕ → ℚ) → List (List ℚ) → Bool →
      (ℕ → ℚ) → ℚ → ((ℕ → ℕ → ℚ) × (ℕ → ℕ → ℚ)))
    (hessFlag : Bool) (gp : ℚ) (k : ℕ) (y : List ℕ) (x : ℕ → ℕ → ℚ)
    (w : ℕ → ℕ → ℕ → ℚ) (gammas : ℕ → ℕ → ℚ) :
    (ℕ → ℕ → ℕ → ℚ) × (ℕ → ℕ → ℕ → ℚ) :=
  (fun z => if z < k then
      (glmFit x (w z) (oneHotMatrix y) hessFlag (fun t => gammas t z) gp).1
    else w z,
   fun t z j => if z < k then
      (glmFit x (w z) (oneHotMatrix y) hessFlag (fun t => gammas t z) gp).2 t j
    else 0)

/-! ## One EM iteration (the body of the `for n in range(maxiter)` loop,
source lines 199–231) -/

/-- The `pi0` actually used by the forward pass: the caller's distribution,
or uniform when `pi0` is Python's `None` (spec §4.1: "defaults to uniform if
absent"). -/
def pi0OrUniform (k : ℕ) (pi0 : Option (ℕ → ℚ)) : ℕ → ℚ :=
  pi0.getD (fun _ => 1 / (k : ℚ))

/-- Per-session forward log-likelihood `ll_s` for session `s`
(source line 210). -/
def sessionLL (lg : ℚ → ℚ) (k : ℕ) (y : List ℕ) (sess : List ℕ) (A : ℕ → ℕ → ℚ)
    (phi : ℕ → ℕ → ℕ → ℚ) (pi0 : Option (ℕ → ℚ)) (s : ℕ) : ℚ :=
  forwardLL lg (sessLen sess s) k (sessY y sess s) A (sessPhi phi sess s)
    (pi0OrUniform k pi0)

/-- The full-length `alpha` array after the per-session E steps. -/
def eStepAlpha (k : ℕ) (y : List ℕ) (sess : List ℕ) (A : ℕ → ℕ → ℚ)
    (phi : ℕ → ℕ → ℕ → ℚ) (pi0 : Option (ℕ → ℚ)) : ℕ → ℕ → ℚ :=
  stitched sess
    (fun s t z =>
      forwardAlpha k (sessY y sess s) A (sessPhi phi sess s) (pi0OrUniform k pi0) t z)
    (fun _ _ => 0)

/-- The full-length `cs` array after the per-session E steps. -/
def eStepCs (k : ℕ) (y : List ℕ) (sess : List ℕ) (A : ℕ → ℕ → ℚ)
    (phi : ℕ → ℕ → ℕ → ℚ) (pi0 : Option (ℕ → ℚ)) : ℕ → ℚ :=
  stitched sess
    (fun s t =>
      forwardCs k (sessY y sess s) A (sessPhi phi sess s) (pi0OrUniform k pi0) t)
    (fun _ => 0)

/-- The full-length `beta` array after the per-session E steps. -/
def eStepBeta (k : ℕ) (y : List ℕ) (sess : List ℕ) (A : ℕ → ℕ → ℚ)
    (phi : ℕ → ℕ → ℕ → ℚ) (pi0 : Option (ℕ → ℚ)) : ℕ → ℕ → ℚ :=
  stitched sess
    (fun s t z =>
      bwBeta k (sessLen sess s) (sessY y sess s) A (sessPhi phi sess s)
        (pi0OrUniform k pi0) t z)
    (fun _ _ => 0)

/-- The full-length responsibilities handed to the M step: the per-session
smoothed posteriors raised elementwise to the temperature `B` during the
stitching assignment `pBack[sess[s]:sess[s+1]] = pBack_s ** B`
(source line 217). -/
def eStepGammas (k : ℕ) (y : List ℕ) (sess : List ℕ) (A : ℕ → ℕ → ℚ)
    (phi : ℕ → ℕ → ℕ → ℚ) (pi0 : Option (ℕ → ℚ)) (B : ℕ) : ℕ → ℕ → ℚ :=
  stitched sess
    (fun s t z =>
      (pBackArr k (sessLen sess s) (sessY y sess s) A (sessPhi phi sess s)
        (pi0OrUniform k pi0) t z) ^ B)
    (fun _ _ => 0)

/-- One EM iteration of `fit` (source lines 199–231): the E step sums the
per-session log-likelihoods into `ll` and stitches `alpha`, `cs`, `beta` and
the temperature-raised `pBack` into full-length arrays; the M step
(`_updateParams`, source lines 130–158) then recomputes `A` from the old
`phi`, recomputes `w`/`phi` state by state from the responsibilities, and
recomputes `pi0` only when `fitInit` is set.  Returns this iteration's `ll`
together with the updated state. -/
def emStep (C : Collab) (lg : ℚ → ℚ) (hessFlag : Bool) (gp : ℚ) (k : ℕ)
    (y : List ℕ) (x : ℕ → ℕ → ℚ) (sess : List ℕ) (B : ℕ) (fitInit : Bool)
    (st : EMSt) : ℚ × EMSt :=
  let ll := ∑ s ∈ Finset.range (sess.length - 1), sessionLL lg k y sess st.A st.phi st.pi0 s
  let gammas := eStepGammas k y sess st.A st.phi st.pi0 B
  let A' := C.updTrans y (eStepAlpha k y sess st.A st.phi st.pi0)
    (eStepBeta k y sess st.A st.phi st.pi0) (eStepCs k y sess st.A st.phi st.pi0)
    st.A st.phi
  let wphi := updateObservations C.glmFit hessFlag gp k y x st.w gammas
  let pi0' := if fitInit then some (C.updInit gammas) else st.pi0
  (ll, ⟨A', wphi.1, wphi.2, pi0'⟩)

/-! ## The EM loop of `fit` (source lines 184–233) -/

/-- The state after `i` EM iterations, for a generic iteration body
`step` returning `(ll, updated state)`. -/
def stIter {St : Type} (step : St → ℚ × St) (st0 : St) (i : ℕ) : St :=
  (fun s => (step s).2)^[i] st0

/-- The log-likelihood computed (from the pre-update parameters) in
iteration `i`. -/
def llSeq {St : Type} (step : St → ℚ × St) (st0 : St) (i : ℕ) : ℚ :=
  (step (stIter step st0 i)).1

/-- The early-stopping test of source line 230,
`n > 5 and lls[n-5] + tol >= ll`, expressed on the sequence of per-iteration
log-likelihoods. -/
def stopAt (f : ℕ → ℚ) (tol : ℚ) (m : ℕ) : Prop :=
  5 < m ∧ f (m - 5) + tol ≥ f m

instance (f : ℕ → ℚ) (tol : ℚ) (m : ℕ) : Decidable (stopAt f tol m) :=
  inferInstanceAs (Decidable (5 < m ∧ f (m - 5) + tol ≥ f m))

/-- The `for n in range(maxiter)` loop of `fit`: `fuel` is the number of
remaining iterations (`maxiter - n`), `n` the loop index, `lls` the trace
(`none` is the `np.nan` filling of the unwritten entries).  Each iteration
runs the step, stores `some ll` at index `n`, and breaks when
`n > 5 ∧ lls[n-5] + tol ≥ ll`, reading `lls[n-5]` from the trace exactly as
the source does.  Returns the trace, the final state and the number of
iterations that executed. -/
def fitGo {St : Type} (step : St → ℚ × St) (tol : ℚ) :
    ℕ → ℕ → St → List (Option ℚ) → List (Option ℚ) × St × ℕ
  | 0, n, st, lls => (lls, st, n)
  | fuel+1, n, st, lls =>
      if 5 < n ∧
          (((lls.set n (some (step st).1)).getD (n - 5) none).getD 0) + tol ≥ (step st).1 then
        (lls.set n (some (step st).1), (step st).2, n + 1)
      else fitGo step tol fuel (n + 1) (step st).2 (lls.set n (some (step st).1))

/-- The initial state of a fit call: the caller's `A`, `w`, `pi0`, with the
emission cache `phi[i,z,:] = compObs(x[i,:], w[z,:,:])` computed up front
(source lines 188–194). -/
def initSt (C : Collab) (x : ℕ → ℕ → ℚ) (A0 : ℕ → ℕ → ℚ) (w0 : ℕ → ℕ → ℕ → ℚ)
    (pi0 : Option (ℕ → ℚ)) : EMSt :=
  ⟨A0, w0, fun t z j => C.compObs (x t) (w0 z) j, pi0⟩

/-- `GLMHMM.fit` (source lines 160–233).  `sessOpt = none` is replaced by
the single-session boundary array `[0, n]` (source lines 196–197,
`n = y.length` being `self.n`).  Returns the trace `lls`, the final state
(`A`, `w`, `phi`, `pi0`) and the number of EM iterations executed. -/
def fitModel (C : Collab) (lg : ℚ → ℚ) (hessFlag : Bool) (gp : ℚ) (k : ℕ)
    (y : List ℕ) (x : ℕ → ℕ → ℚ) (A0 : ℕ → ℕ → ℚ) (w0 : ℕ → ℕ → ℕ → ℚ)
    (pi0 : Option (ℕ → ℚ)) (fitInit : Bool) (maxiter : ℕ) (tol : ℚ)
    (sessOpt : Option (List ℕ)) (B : ℕ) : List (Option ℚ) × EMSt × ℕ :=
  fitGo (emStep C lg hessFlag gp k y x (sessOpt.getD [0, y.length]) B fitInit) tol
    maxiter 0 (initSt C x A0 w0 pi0) (List.replicate maxiter none)

/-- The warnings a run of `fit` emits.  The body of `fit` (source lines
160–233) contains no `warnings.warn`, no `raise` and no logging of any kind:
whatever happens — including reaching `maxiter` without the tolerance rule —
the function silently returns, so the emitted-warning list is empty. -/
inductive FitWarning where
  | nonConverged
deriving DecidableEq

/-- The (empty) list of warnings emitted by a call of `fit`; the arguments
are those of `fitModel`. -/
def fitWarnings (_C : Collab) (_lg : ℚ → ℚ) (_hessFlag : Bool) (_gp : ℚ) (_k : ℕ)
    (_y : List ℕ) (_x : ℕ → ℕ → ℚ) (_A0 : ℕ → ℕ → ℚ) (_w0 : ℕ → ℕ → ℕ → ℚ)
    (_pi0 : Option (ℕ → ℚ)) (_fitInit : Bool) (_maxiter : ℕ) (_tol : ℚ)
    (_sessOpt : Option (List ℕ)) (_B : ℕ) : List FitWarning := []

/-- The per-iteration log-likelihood sequence of a fit call (the value the
E step computes at iteration `i`, determined by the initial parameters
because the loop is deterministic). -/
def fitLLSeq (C : Collab) (lg : ℚ → ℚ) (hessFlag : Bool) (gp : ℚ) (k : ℕ)
    (y : List ℕ) (x : ℕ → ℕ → ℚ) (A0 : ℕ → ℕ → ℚ) (w0 : ℕ → ℕ → ℕ → ℚ)
    (pi0 : Option (ℕ → ℚ)) (fitInit : Bool) (sessOpt : Option (List ℕ)) (B : ℕ) :
    ℕ → ℚ :=
  llSeq (emStep C lg hessFlag gp k y x (sessOpt.getD [0, y.length]) B fitInit)
    (initSt C x A0 w0 pi0)

/-- The number of EM iterations a fit call executes. -/
def fitIterCount (C : Collab) (lg : ℚ → ℚ) (hessFlag : Bool) (gp : ℚ) (k : ℕ)
    (y : List ℕ) (x : ℕ → ℕ → ℚ) (A0 : ℕ → ℕ → ℚ) (w0 : ℕ → ℕ → ℕ → ℚ)
    (pi0 : Option (ℕ → ℚ)) (fitInit : Bool) (maxiter : ℕ) (tol : ℚ)
    (sessOpt : Option (List ℕ)) (B : ℕ) : ℕ :=
  (fitModel C lg hessFlag gp k y x A0 w0 pi0 fitInit maxiter tol sessOpt B).2.2

/-- The stitched backward-pass posteriors with no temperature applied
(the raw `pBack` of the source, before the `** B` of line 217). -/
def eStepPBack (k : ℕ) (y : List ℕ) (sess : List ℕ) (A : ℕ → ℕ → ℚ)
    (phi : ℕ → ℕ → ℕ → ℚ) (pi0 : Option (ℕ → ℚ)) : ℕ → ℕ → ℚ :=
  stitched sess
    (fun s t z =>
      pBackArr k (sessLen sess s) (sessY y sess s) A (sessPhi phi sess s)
        (pi0OrUniform k pi0) t z)
    (fun _ _ => 0)

/-- Degenerate collaborators used to instantiate the generic theorems on a
concrete input: identity transition update, identity weight solve with
constant emissions, constant initial-state update, constant link. -/
def trivialCollab : Collab where
  updTrans := fun _ _ _ _ A _ => A
  glmFit := fun _ w _ _ _ _ => (w, fun _ _ => 1)
  updInit := fun _ => fun _ => 1
  compObs := fun _ _ => fun _ => 1

/-- A concrete one-state EM state used to instantiate theorems. -/
def demoSt : EMSt := ⟨fun _ _ => 1, fun _ _ _ => 0, fun _ _ _ => 1, none⟩

/-! ## Generic facts about the EM loop -/

lemma stIter_succ {St : Type} (step : St → ℚ × St) (st0 : St) (i : ℕ) :
    stIter step st0 (i + 1) = (step (stIter step st0 i)).2 := by
  unfold stIter
  rw [Function.iterate_succ_apply']

lemma getD_set_ne (l : List (Option ℚ)) (n i : ℕ) (a : Option ℚ) (h : i ≠ n) :
    (l.set n a).getD i none = l.getD i none := by
  simp [List.getD_eq_getElem?_getD, List.getElem?_set_ne (Ne.symm h)]

lemma getD_set_self (l : List (Option ℚ)) (n : ℕ) (a : Option ℚ) (h : n < l.length) :
    (l.set n a).getD n none = a := by
  simp [List.getD_eq_getElem?_getD, List.getElem?_set_eq_of_lt _ h]

lemma getD_replicate_none (m i : ℕ) :
    (List.replicate m (none : Option ℚ)).getD i none = none := by
  simp only [List.getD_eq_getElem?_getD, List.getElem?_replicate]
  split <;> rfl

lemma fitGo_succ {St : Type} (step : St → ℚ × St) (tol : ℚ) (fuel n : ℕ) (st : St)
    (lls : List (Option ℚ)) :
    fitGo step tol (fuel+1) n st lls =
      if 5 < n ∧
          (((lls.set n (some (step st).1)).getD (n - 5) none).getD 0) + tol ≥ (step st).1 then
        (lls.set n (some (step st).1), (step st).2, n + 1)
      else fitGo step tol fuel (n + 1) (step st).2 (lls.set n (some (step st).1)) := rfl

/-- Complete characterization of the loop `fitGo`, by induction on the
remaining fuel: the trace keeps length `maxiter`; the executed-iteration
count lies between the entry index and `maxiter`; the final state is the
iterate of the step at that count; the trace holds `some (llSeq i)` exactly
for the executed iterations and `none` beyond; the loop runs to `maxiter`
when the stopping test never fires, and stops right after the first index
where it fires. -/
theorem fitGo_run {St : Type} (step : St → ℚ × St) (st0 : St) (tol : ℚ) (maxiter : ℕ) :
    ∀ (fuel n : ℕ) (st : St) (lls : List (Option ℚ)),
      n + fuel = maxiter →
      st = stIter step st0 n →
      lls.length = maxiter →
      (∀ i, i < n → lls.getD i none = some (llSeq step st0 i)) →
      (∀ i, n ≤ i → lls.getD i none = none) →
      (fitGo step tol fuel n st lls).1.length = maxiter ∧
      n ≤ (fitGo step tol fuel n st lls).2.2 ∧
      (fitGo step tol fuel n st lls).2.2 ≤ maxiter ∧
      (fitGo step tol fuel n st lls).2.1 = stIter step st0 (fitGo step tol fuel n st lls).2.2 ∧
      (∀ i, i < (fitGo step tol fuel n st lls).2.2 →
        (fitGo step tol fuel n st lls).1.getD i none = some (llSeq step st0 i)) ∧
      (∀ i, (fitGo step tol fuel n st lls).2.2 ≤ i →
        (fitGo step tol fuel n st lls).1.getD i none = none) ∧
      ((∀ m, n ≤ m → m < maxiter → ¬ stopAt (llSeq step st0) tol m) →
        (fitGo step tol fuel n st lls).2.2 = maxiter) ∧
      (∀ n0, n ≤ n0 → n0 < maxiter → stopAt (llSeq step st0) tol n0 →
        (∀ m, n ≤ m → m < n0 → ¬ stopAt (llSeq step st0) tol m) →
        (fitGo step tol fuel n st lls).2.2 = n0 + 1) := by
  intro fuel
  induction fuel with
  | zero =>
    intro n st lls hmax hst hlen hpre hpost
    have hn : n = maxiter := by omega
    simp only [fitGo]
    exact ⟨hlen, le_refl _, by omega, hst, hpre, hpost, fun _ => hn,
      fun n0 h1 h2 _ _ => by omega⟩
  | succ fuel ih =>
    intro n st lls hmax hst hlen hpre hpost
    have hnlt : n < maxiter := by omega
    have hp1 : (step st).1 = llSeq step st0 n := by rw [hst]; rfl
    have hlen' : (lls.set n (some (step st).1)).length = maxiter := by
      rw [List.length_set]; exact hlen
    have hpre' : ∀ i, i < n + 1 →
        (lls.set n (some (step st).1)).getD i none = some (llSeq step st0 i) := by
      intro i hi
      rcases Nat.lt_or_ge i n with h | h
      · rw [getD_set_ne _ _ _ _ (by omega)]; exact hpre i h
      · have hi' : i = n := by omega
        subst hi'
        rw [getD_set_self _ _ _ (by omega), hp1]
    have hpost' : ∀ i, n + 1 ≤ i → (lls.set n (some (step st).1)).getD i none = none := by
      intro i hi
      rw [getD_set_ne _ _ _ _ (by omega)]; exact hpost i (by omega)
    have hcond : (5 < n ∧
        (((lls.set n (some (step st).1)).getD (n - 5) none).getD 0) + tol ≥ (step st).1) ↔
        stopAt (llSeq step st0) tol n := by
      unfold stopAt
      constructor
      · rintro ⟨h5, hge⟩
        refine ⟨h5, ?_⟩
        rw [hpre' (n - 5) (by omega)] at hge
        simpa [hp1] using hge
      · rintro ⟨h5, hge⟩
        refine ⟨h5, ?_⟩
        rw [hpre' (n - 5) (by omega)]
        simpa [hp1] using hge
    have hst' : (step st).2 = stIter step st0 (n + 1) := by rw [stIter_succ, hst]
    by_cases hc : 5 < n ∧
        (((lls.set n (some (step st).1)).getD (n - 5) none).getD 0) + tol ≥ (step st).1
    · rw [fitGo_succ, if_pos hc]
      dsimp only
      have hstop : stopAt (llSeq step st0) tol n := hcond.mp hc
      refine ⟨hlen', by omega, by omega, hst', hpre', hpost', ?_, ?_⟩
      · intro hno; exact absurd hstop (hno n (le_refl n) hnlt)
      · intro n0 hn0 hn0' _ hmin
        have hn0n : n0 = n := by
          by_contra hne
          exact hmin n (le_refl n) (by omega) hstop
        omega
    · rw [fitGo_succ, if_neg hc]
      obtain ⟨h1, h2, h3, h4, h5', h6, h7, h8⟩ :=
        ih (n + 1) (step st).2 (lls.set n (some (step st).1)) (by omega) hst' hlen' hpre' hpost'
      have hnostop : ¬ stopAt (llSeq step st0) tol n := fun h => hc (hcond.mpr h)
      refine ⟨h1, by omega, h3, h4, h5', h6, ?_, ?_⟩
      · intro hno; exact h7 (fun m hm hm' => hno m (by omega) hm')
      · intro n0 hn0 hn0' hstop0 hmin
        have hne : n0 ≠ n := fun h => hnostop (h ▸ hstop0)
        exact h8 n0 (by omega) hn0' hstop0 (fun m hm hm' => hmin m (by omega) hm')

/-! ## Facts about session stitching -/

lemma sessStart_mono (sess : List ℕ)
    (hmono : ∀ u, u + 1 < sess.length → sessStart sess u < sessStart sess (u + 1)) :
    ∀ a b, a ≤ b → b < sess.length → sessStart sess a ≤ sessStart sess b := by
  intro a b
  induction b with
  | zero =>
    intro hab _
    have : a = 0 := by omega
    subst this; exact le_refl _
  | succ b ihb =>
    intro hab hb
    rcases Nat.lt_or_ge a (b + 1) with h | h
    · have h1 := ihb (by omega) (by omega)
      have h2 := hmono b hb
      omega
    · have : a = b + 1 := by omega
      subst this; exact le_refl _

/-- Value of the sequential session-assignment loop at an index covered by
session `s`: under strictly increasing boundaries the later sessions do not
overwrite it, so the stitched array holds session `s`'s value. -/
lemma stitchGo_apply {α : Type} (sess : List ℕ) (g : ℕ → ℕ → α) (init : ℕ → α)
    (hmono : ∀ u, u + 1 < sess.length → sessStart sess u < sessStart sess (u + 1)) :
    ∀ m s t, s < m → m < sess.length →
      sessStart sess s ≤ t → t < sessStart sess (s + 1) →
      stitchGo sess g m init t = g s (t - sessStart sess s) := by
  intro m
  induction m with
  | zero => intro s t hsm; omega
  | succ m ihm =>
    intro s t hsm hmlen hts htl
    simp only [stitchGo]
    by_cases hcase : sessStart sess m ≤ t ∧ t < sessStart sess (m + 1)
    · have hsm' : s = m := by
        by_contra hne
        have h1 := sessStart_mono sess hmono (s + 1) m (by omega) (by omega)
        omega
      subst hsm'
      rw [if_pos hcase]
    · rw [if_neg hcase]
      have hsm2 : s < m := by
        rcases Nat.lt_or_ge s m with h | h
        · exact h
        · have hsm' : s = m := by omega
          subst hsm'
          exact absurd ⟨hts, htl⟩ hcase
      exact ihm s t hsm2 (by omega) hts htl

lemma stitched_apply {α : Type} (sess : List ℕ) (g : ℕ → ℕ → α) (init : ℕ → α)
    (hmono : ∀ u, u + 1 < sess.length → sessStart sess u < sessStart sess (u + 1))
    (s t : ℕ) (hs : s < sess.length - 1)
    (hts : sessStart sess s ≤ t) (htl : t < sessStart sess (s + 1)) :
    stitched sess g init t = g s (t - sessStart sess s) :=
  stitchGo_apply sess g init hmono (sess.length - 1) s t hs (by omega) hts htl

lemma stitchGo_congr {α : Type} (sess : List ℕ) (g₁ g₂ : ℕ → ℕ → α) (init : ℕ → α)
    (h : ∀ s t, g₁ s t = g₂ s t) :
    ∀ m t, stitchGo sess g₁ m init t = stitchGo sess g₂ m init t := by
  intro m
  induction m with
  | zero => intro t; rfl
  | succ m ihm =>
    intro t
    simp only [stitchGo]
    rw [h m (t - sessStart sess m)]
    split
    · rfl
    · exact ihm t

/-! ## Locality of the forward pass: `fwJoint` at time `t` reads `y` and
`phi` only at indices `≤ t` -/

lemma fwJoint_congr (k : ℕ) (y₁ y₂ : ℕ → ℕ) (A : ℕ → ℕ → ℚ)
    (phi₁ phi₂ : ℕ → ℕ → ℕ → ℚ) (pi0 : ℕ → ℚ) :
    ∀ t, (∀ u, u ≤ t → y₁ u = y₂ u) →
      (∀ u, u ≤ t → ∀ z j, phi₁ u z j = phi₂ u z j) →
      ∀ z, fwJoint k y₁ A phi₁ pi0 t z = fwJoint k y₂ A phi₂ pi0 t z := by
  intro t
  induction t with
  | zero =>
    intro hy hphi z
    simp only [fwJoint]
    rw [hy 0 (le_refl 0), hphi 0 (le_refl 0) z (y₂ 0)]
  | succ t iht =>
    intro hy hphi z
    have hJ : ∀ w, fwJoint k y₁ A phi₁ pi0 t w = fwJoint k y₂ A phi₂ pi0 t w :=
      iht (fun u hu => hy u (by omega)) (fun u hu => hphi u (by omega))
    have hcs : ∑ j ∈ Finset.range k, fwJoint k y₁ A phi₁ pi0 t j
        = ∑ j ∈ Finset.range k, fwJoint k y₂ A phi₂ pi0 t j :=
      Finset.sum_congr rfl (fun j _ => hJ j)
    simp only [fwJoint]
    rw [hy (t + 1) (le_refl _), hphi (t + 1) (le_refl _) z (y₂ (t + 1)), hcs]
    congr 1
    exact Finset.sum_congr rfl (fun i _ => by rw [hJ i])

lemma forwardCs_congr (k : ℕ) (y₁ y₂ : ℕ → ℕ) (A : ℕ → ℕ → ℚ)
    (phi₁ phi₂ : ℕ → ℕ → ℕ → ℚ) (pi0 : ℕ → ℚ) (t : ℕ)
    (hy : ∀ u, u ≤ t → y₁ u = y₂ u)
    (hphi : ∀ u, u ≤ t → ∀ z j, phi₁ u z j = phi₂ u z j) :
    forwardCs k y₁ A phi₁ pi0 t = forwardCs k y₂ A phi₂ pi0 t := by
  unfold forwardCs
  exact Finset.sum_congr rfl (fun z _ => fwJoint_congr k y₁ y₂ A phi₁ phi₂ pi0 t hy hphi z)

/-! ## The fit call as a whole -/

/-- `fitGo_run` specialized to the entry point `fitModel`. -/
lemma fitModel_run (C : Collab) (lg : ℚ → ℚ) (hf : Bool) (gp : ℚ) (k : ℕ)
    (y : List ℕ) (x : ℕ → ℕ → ℚ) (A0 : ℕ → ℕ → ℚ) (w0 : ℕ → ℕ → ℕ → ℚ)
    (pi0 : Option (ℕ → ℚ)) (fitInit : Bool) (maxiter : ℕ) (tol : ℚ)
    (sessOpt : Option (List ℕ)) (B : ℕ) :
    (fitModel C lg hf gp k y x A0 w0 pi0 fitInit maxiter tol sessOpt B).1.length = maxiter ∧
    fitIterCount C lg hf gp k y x A0 w0 pi0 fitInit maxiter tol sessOpt B ≤ maxiter ∧
    (fitModel C lg hf gp k y x A0 w0 pi0 fitInit maxiter tol sessOpt B).2.1 =
      stIter (emStep C lg hf gp k y x (sessOpt.getD [0, y.length]) B fitInit)
        (initSt C x A0 w0 pi0)
        (fitIterCount C lg hf gp k y x A0 w0 pi0 fitInit maxiter tol sessOpt B) ∧
    (∀ i, i < fitIterCount C lg hf gp k y x A0 w0 pi0 fitInit maxiter tol sessOpt B →
      (fitModel C lg hf gp k y x A0 w0 pi0 fitInit maxiter tol sessOpt B).1.getD i none =
        some (fitLLSeq C lg hf gp k y x A0 w0 pi0 fitInit sessOpt B i)) ∧
    (∀ i, fitIterCount C lg hf gp k y x A0 w0 pi0 fitInit maxiter tol sessOpt B ≤ i →
      (fitModel C lg hf gp k y x A0 w0 pi0 fitInit maxiter tol sessOpt B).1.getD i none =
        none) ∧
    ((∀ m, m < maxiter →
        ¬ stopAt (fitLLSeq C lg hf gp k y x A0 w0 pi0 fitInit sessOpt B) tol m) →
      fitIterCount C lg hf gp k y x A0 w0 pi0 fitInit maxiter tol sessOpt B = maxiter) ∧
    (∀ n0, n0 < maxiter →
      stopAt (fitLLSeq C lg hf gp k y x A0 w0 pi0 fitInit sessOpt B) tol n0 →
      (∀ m, m < n0 →
        ¬ stopAt (fitLLSeq C lg hf gp k y x A0 w0 pi0 fitInit sessOpt B) tol m) →
      fitIterCount C lg hf gp k y x A0 w0 pi0 fitInit maxiter tol sessOpt B = n0 + 1) := by
  have h := fitGo_run (emStep C lg hf gp k y x (sessOpt.getD [0, y.length]) B fitInit)
    (initSt C x A0 w0 pi0) tol maxiter maxiter 0 (initSt C x A0 w0 pi0)
    (List.replicate maxiter none) (by omega) rfl (by simp)
    (fun i hi => absurd hi (by omega)) (fun i _ => getD_replicate_none maxiter i)
  exact ⟨h.1, h.2.2.1, h.2.2.2.1, h.2.2.2.2.1, h.2.2.2.2.2.1,
    fun hno => h.2.2.2.2.2.2.1 (fun m _ => hno m),
    fun n0 h1 h2 h3 => h.2.2.2.2.2.2.2 n0 (by omega) h1 h2 (fun m _ => h3 m)⟩

/-- With `fit_init_states = False` the EM iterates never touch `pi0`. -/
lemma stIter_pi0 (C : Collab) (lg : ℚ → ℚ) (hf : Bool) (gp : ℚ) (k : ℕ)
    (y : List ℕ) (x : ℕ → ℕ → ℚ) (sess : List ℕ) (B : ℕ) (st0 : EMSt) :
    ∀ i, (stIter (emStep C lg hf gp k y x sess B false) st0 i).pi0 = st0.pi0 := by
  intro i
  induction i with
  | zero => rfl
  | succ i ih =>
    rw [stIter_succ]
    exact ih

/-! ## Helper lemmas for the one-hot indicator -/

lemma foldl_max_lt (b : ℕ) : ∀ (l : List ℕ) (a : ℕ), a < b → (∀ v ∈ l, v < b) →
    l.foldl max a < b := by
  intro l
  induction l with
  | nil => intro a ha _; simpa using ha
  | cons v l ihl =>
    intro a ha hv
    simp only [List.foldl_cons]
    refine ihl (max a v) (Nat.max_lt.mpr ⟨ha, hv v (List.mem_cons_self v l)⟩) ?_
    intro u hu
    exact hv u (List.mem_cons_of_mem v hu)

lemma getD_map_of_lt {α β : Type} (f : α → β) (l : List α) (t : ℕ) (dα : α) (dβ : β)
    (ht : t < l.length) :
    (l.map f).getD t dβ = f (l.getD t dα) := by
  rw [List.getD_eq_getElem?_getD, List.getD_eq_getElem?_getD, List.getElem?_map,
    List.getElem?_eq_getElem ht]
  simp

lemma getD_range_of_lt (m j : ℕ) (hj : j < m) : (List.range m).getD j 0 = j := by
  rw [List.getD_eq_getElem?_getD, List.getElem?_range hj]
  rfl

/-! ## Claims -/

/-- C1: contrary to the claim, the inner `logLikelihood` of `computeVariance`
adds the penalty `1/(2*gaussPrior^2) * sum(w^2)` unconditionally, so with the
default `gaussPrior = 0` (documented as "no prior") its evaluation divides by
zero (`ZeroDivisionError`, embedded as `none`) for every input, instead of
returning `-∑ log cs` with no penalty. -/
theorem computeVariance_zero_prior_raises (lg ex : ℚ → ℚ) (k d c nn : ℕ)
    (y : ℕ → ℕ) (x : ℕ → ℕ → ℚ) (p : List ℚ) :
    logLikelihoodCV lg ex k d c nn y x 0 p = none := by
  unfold logLikelihoodCV
  split
  · rfl
  · split
    · rfl
    · rw [if_pos (by norm_num)]

/-- C2: `computeVariance` flattens the full `k × d × c` weight tensor, so at
`k = 2, d = 1, c = 2` the flat vector has length `2 + 4 = 6` (not the claimed
`k(k-1) + k·d·(c-1) = 4`), and `logLikelihood` — which reshapes the tail into
`(k, d, c-1)` — raises a `ValueError` (`none`) on it; the `A` part of the
claim does hold: the first `k-1` columns round-trip and the reconstructed
last column re-creates the row-stochastic `A`. -/
theorem computeVariance_flatten_mismatch :
    (paramsFlatCV 2 1 2 (fun i j => if i = j then (0:ℚ) else 1) (fun _ _ _ => 3)).length = 6 ∧
    logLikelihoodCV id id 2 1 2 1 (fun _ => 0) (fun _ _ => 1) 1
      (paramsFlatCV 2 1 2 (fun i j => if i = j then (0:ℚ) else 1) (fun _ _ _ => 3)) = none ∧
    (∀ i, i < 2 → ∀ j, j < 2 →
      unflattenA 2 (paramsFlatCV 2 1 2 (fun i j => if i = j then (0:ℚ) else 1) (fun _ _ _ => 3))
        i j = if i = j then 0 else 1) := by
  refine ⟨by decide, by decide, ?_⟩
  intro i hi j hj
  interval_cases i <;> interval_cases j <;>
    norm_num [unflattenA, paramsFlatCV, List.range_succ, Finset.sum_range_succ]

/-- C10: the one-hot indicator built inside `_updateObservations` has
`y.length` rows and `max(y)+1` columns — the column count set by the largest
observed category, not by the configured `c` — with entry `[t, y t] = 1` and
zeros elsewhere; when category `c-1` never occurs the indicator has fewer
than `c` columns; and it is the matrix passed to every per-state GLM solve. -/
theorem updateObservations_onehot (y : List ℕ) (c : ℕ)
    (gf : (ℕ → ℕ → ℚ) → (ℕ → ℕ → ℚ) → List (List ℚ) → Bool → (ℕ → ℚ) → ℚ →
      ((ℕ → ℕ → ℚ) × (ℕ → ℕ → ℚ)))
    (hf : Bool) (gp : ℚ) (k : ℕ) (x : ℕ → ℕ → ℚ) (w : ℕ → ℕ → ℕ → ℚ)
    (gammas : ℕ → ℕ → ℚ)
    (hne : y ≠ []) (hlt : ∀ v ∈ y, v < c) (hnc : (c - 1) ∉ y) :
    (oneHotMatrix y).length = y.length ∧
    (∀ row ∈ oneHotMatrix y, row.length = yMax y + 1) ∧
    (∀ t, t < y.length → ∀ j, j < yMax y + 1 →
      ((oneHotMatrix y).getD t []).getD j 0 = if j = y.getD t 0 then 1 else 0) ∧
    yMax y + 1 < c ∧
    (∀ z, z < k → (updateObservations gf hf gp k y x w gammas).1 z =
      (gf x (w z) (oneHotMatrix y) hf (fun t => gammas t z) gp).1) := by
  refine ⟨by simp [oneHotMatrix], ?_, ?_, ?_, ?_⟩
  · intro row hrow
    rw [oneHotMatrix, List.mem_map] at hrow
    obtain ⟨yt, _, rfl⟩ := hrow
    simp
  · intro t ht j hj
    have h1 : (oneHotMatrix y).getD t [] =
        (List.range (yMax y + 1)).map (fun j => if j = y.getD t 0 then (1:ℚ) else 0) := by
      unfold oneHotMatrix
      exact getD_map_of_lt _ y t 0 [] ht
    rw [h1, getD_map_of_lt _ (List.range (yMax y + 1)) j 0 0 (by simpa using hj),
      getD_range_of_lt _ _ hj]
  · obtain ⟨v0, hv0⟩ := List.exists_mem_of_ne_nil y hne
    have hvlt : ∀ v ∈ y, v < c - 1 := by
      intro v hv
      have h1 := hlt v hv
      have h2 : v ≠ c - 1 := fun h => hnc (h ▸ hv)
      omega
    have hc1 : 0 < c - 1 := by have := hvlt v0 hv0; omega
    have hfold := foldl_max_lt (c - 1) y 0 hc1 hvlt
    unfold yMax
    omega
  · intro z hz
    simp [updateObservations, hz]

/-- Witness for C10 at `y = [0,1]`, `c = 3`: two rows, and `max(y)+1 = 2 < 3`
columns. -/
theorem updateObservations_onehot_witness :
    yMax [0, 1] + 1 < 3 ∧ (oneHotMatrix [0, 1]).length = [0, 1].length := by
  have h := updateObservations_onehot [0, 1] 3 trivialCollab.glmFit false 0 1
    (fun _ _ => 0) (fun _ _ _ => 0) (fun _ _ => 0) (by decide) (by decide) (by decide)
  exact ⟨h.2.2.2.1, h.1⟩

/-- C3: fit stops iterating early exactly when the lagged rule
`n > 5 ∧ lls[n-5] + tol ≥ ll` (`stopAt`, comparing the current
log-likelihood against its value five iterations earlier) first fires before
`maxiter`; when it never fires, exactly `maxiter` iterations run. -/
theorem fit_lagged_convergence (C : Collab) (lg : ℚ → ℚ) (hf : Bool) (gp : ℚ) (k : ℕ)
    (y : List ℕ) (x : ℕ → ℕ → ℚ) (A0 : ℕ → ℕ → ℚ) (w0 : ℕ → ℕ → ℕ → ℚ)
    (pi0 : Option (ℕ → ℚ)) (fitInit : Bool) (maxiter : ℕ) (tol : ℚ)
    (sessOpt : Option (List ℕ)) (B : ℕ) :
    ((∀ m, m < maxiter →
        ¬ stopAt (fitLLSeq C lg hf gp k y x A0 w0 pi0 fitInit sessOpt B) tol m) →
      fitIterCount C lg hf gp k y x A0 w0 pi0 fitInit maxiter tol sessOpt B = maxiter) ∧
    (∀ n0, n0 < maxiter →
      stopAt (fitLLSeq C lg hf gp k y x A0 w0 pi0 fitInit sessOpt B) tol n0 →
      (∀ m, m < n0 →
        ¬ stopAt (fitLLSeq C lg hf gp k y x A0 w0 pi0 fitInit sessOpt B) tol m) →
      fitIterCount C lg hf gp k y x A0 w0 pi0 fitInit maxiter tol sessOpt B = n0 + 1) :=
  ⟨(fitModel_run C lg hf gp k y x A0 w0 pi0 fitInit maxiter tol sessOpt B).2.2.2.2.2.1,
   (fitModel_run C lg hf gp k y x A0 w0 pi0 fitInit maxiter tol sessOpt B).2.2.2.2.2.2⟩

/-- Witness for C3: with `maxiter = 6` the lagged rule (which needs `n > 5`)
can never fire, so exactly 6 iterations run. -/
theorem fit_lagged_convergence_witness :
    fitIterCount trivialCollab id false 0 1 [0] (fun _ _ => 0) (fun _ _ => 1)
      (fun _ _ _ => 0) none false 6 (-1) none 1 = 6 :=
  (fit_lagged_convergence trivialCollab id false 0 1 [0] (fun _ _ => 0) (fun _ _ => 1)
    (fun _ _ _ => 0) none false 6 (-1) none 1).1
    (fun _ _ h => absurd h.1 (by omega))

/-- C4: the responsibilities handed to the M step are the backward-pass
posteriors raised elementwise to the temperature `B`, applied during the
stitching immediately after the backward pass; with `B = 1` they equal the
raw posteriors unchanged; and it is exactly this array that the weight/
emission update consumes. -/
theorem fit_temperature (C : Collab) (lg : ℚ → ℚ) (hf : Bool) (gp : ℚ) (k : ℕ)
    (y : List ℕ) (x : ℕ → ℕ → ℚ) (sess : List ℕ) (B : ℕ) (fitInit : Bool) (st : EMSt)
    (hmono : ∀ u, u + 1 < sess.length → sessStart sess u < sessStart sess (u + 1)) :
    (∀ s t z, s < sess.length - 1 → sessStart sess s ≤ t → t < sessStart sess (s + 1) →
      eStepGammas k y sess st.A st.phi st.pi0 B t z =
        (pBackArr k (sessLen sess s) (sessY y sess s) st.A (sessPhi st.phi sess s)
          (pi0OrUniform k st.pi0) (t - sessStart sess s) z) ^ B) ∧
    (eStepGammas k y sess st.A st.phi st.pi0 1 = eStepPBack k y sess st.A st.phi st.pi0) ∧
    ((emStep C lg hf gp k y x sess B fitInit st).2.w =
      (updateObservations C.glmFit hf gp k y x st.w
        (eStepGammas k y sess st.A st.phi st.pi0 B)).1) ∧
    ((emStep C lg hf gp k y x sess B fitInit st).2.phi =
      (updateObservations C.glmFit hf gp k y x st.w
        (eStepGammas k y sess st.A st.phi st.pi0 B)).2) := by
  refine ⟨?_, ?_, rfl, rfl⟩
  · intro s t z hs hts htl
    exact congrFun (stitched_apply sess _ _ hmono s t hs hts htl) z
  · funext t z
    unfold eStepGammas eStepPBack stitched
    exact congrFun (stitchGo_congr sess _ _ _
      (fun s u => funext (fun v => pow_one _)) (sess.length - 1) t) z

/-- Witness for C4 at a one-state, one-observation, single-session input with
temperature `B = 2`. -/
theorem fit_temperature_witness :
    eStepGammas 1 [0] [0, 1] demoSt.A demoSt.phi demoSt.pi0 2 0 0 =
      (pBackArr 1 (sessLen [0, 1] 0) (sessY [0] [0, 1] 0) demoSt.A
        (sessPhi demoSt.phi [0, 1] 0) (pi0OrUniform 1 demoSt.pi0)
        (0 - sessStart [0, 1] 0) 0) ^ 2 :=
  (fit_temperature trivialCollab id false 0 1 [0] (fun _ _ => 0) [0, 1] 2 false demoSt
    (by
      intro u hu
      have hu0 : u = 0 := by simp at hu; omega
      subst hu0
      decide)).1 0 0 0 (by decide) (by decide) (by decide)

/-- C5: calling fit with `sess = None` produces results identical to calling
it with the explicit single-session boundary array `[0, n]`, for every
input. -/
theorem fit_default_session_equiv (C : Collab) (lg : ℚ → ℚ) (hf : Bool) (gp : ℚ)
    (k : ℕ) (y : List ℕ) (x : ℕ → ℕ → ℚ) (A0 : ℕ → ℕ → ℚ) (w0 : ℕ → ℕ → ℕ → ℚ)
    (pi0 : Option (ℕ → ℚ)) (fitInit : Bool) (maxiter : ℕ) (tol : ℚ) (B : ℕ) :
    fitModel C lg hf gp k y x A0 w0 pi0 fitInit maxiter tol none B =
      fitModel C lg hf gp k y x A0 w0 pi0 fitInit maxiter tol (some [0, y.length]) B := rfl

/-- C6: the log-likelihood trace has length exactly `maxiter`; entry `i`
holds the iteration-`i` log-likelihood for every executed iteration and
`none` (NaN) past the last executed one; and the trace is returned together
with the final state (A, w, phi, pi0). -/
theorem fit_trace (C : Collab) (lg : ℚ → ℚ) (hf : Bool) (gp : ℚ) (k : ℕ)
    (y : List ℕ) (x : ℕ → ℕ → ℚ) (A0 : ℕ → ℕ → ℚ) (w0 : ℕ → ℕ → ℕ → ℚ)
    (pi0 : Option (ℕ → ℚ)) (fitInit : Bool) (maxiter : ℕ) (tol : ℚ)
    (sessOpt : Option (List ℕ)) (B : ℕ) :
    (fitModel C lg hf gp k y x A0 w0 pi0 fitInit maxiter tol sessOpt B).1.length = maxiter ∧
    (∀ i, i < fitIterCount C lg hf gp k y x A0 w0 pi0 fitInit maxiter tol sessOpt B →
      (fitModel C lg hf gp k y x A0 w0 pi0 fitInit maxiter tol sessOpt B).1.getD i none =
        some (fitLLSeq C lg hf gp k y x A0 w0 pi0 fitInit sessOpt B i)) ∧
    (∀ i, fitIterCount C lg hf gp k y x A0 w0 pi0 fitInit maxiter tol sessOpt B ≤ i →
      (fitModel C lg hf gp k y x A0 w0 pi0 fitInit maxiter tol sessOpt B).1.getD i none =
        none) ∧
    (fitModel C lg hf gp k y x A0 w0 pi0 fitInit maxiter tol sessOpt B).2.1 =
      stIter (emStep C lg hf gp k y x (sessOpt.getD [0, y.length]) B fitInit)
        (initSt C x A0 w0 pi0)
        (fitIterCount C lg hf gp k y x A0 w0 pi0 fitInit maxiter tol sessOpt B) :=
  ⟨(fitModel_run C lg hf gp k y x A0 w0 pi0 fitInit maxiter tol sessOpt B).1,
   (fitModel_run C lg hf gp k y x A0 w0 pi0 fitInit maxiter tol sessOpt B).2.2.2.1,
   (fitModel_run C lg hf gp k y x A0 w0 pi0 fitInit maxiter tol sessOpt B).2.2.2.2.1,
   (fitModel_run C lg hf gp k y x A0 w0 pi0 fitInit maxiter tol sessOpt B).2.2.1⟩

/-- Witness for C6 at a concrete two-iteration fit. -/
theorem fit_trace_witness :
    (fitModel trivialCollab id false 0 1 [0] (fun _ _ => 0) (fun _ _ => 1)
      (fun _ _ _ => 0) none false 2 (-1) none 1).1.length = 2 :=
  (fit_trace trivialCollab id false 0 1 [0] (fun _ _ => 0) (fun _ _ => 1)
    (fun _ _ _ => 0) none false 2 (-1) none 1).1

/-- C7: each per-iteration log-likelihood is the sum over sessions of the
per-session forward log-likelihoods; the per-session `alpha`, `cs`, `beta`
are computed on that session's slice and stitched back at its index range;
and each session's log-likelihood depends only on that session's slice of
`y` and `phi`. -/
theorem fit_session_estep (C : Collab) (lg : ℚ → ℚ) (hf : Bool) (gp : ℚ) (k : ℕ)
    (y : List ℕ) (x : ℕ → ℕ → ℚ) (sess : List ℕ) (B : ℕ) (fitInit : Bool) (st : EMSt)
    (hmono : ∀ u, u + 1 < sess.length → sessStart sess u < sessStart sess (u + 1)) :
    ((emStep C lg hf gp k y x sess B fitInit st).1 =
      ∑ s ∈ Finset.range (sess.length - 1),
        forwardLL lg (sessLen sess s) k (sessY y sess s) st.A (sessPhi st.phi sess s)
          (pi0OrUniform k st.pi0)) ∧
    (∀ s t, s < sess.length - 1 → sessStart sess s ≤ t → t < sessStart sess (s + 1) →
      (∀ z, eStepAlpha k y sess st.A st.phi st.pi0 t z =
        forwardAlpha k (sessY y sess s) st.A (sessPhi st.phi sess s)
          (pi0OrUniform k st.pi0) (t - sessStart sess s) z) ∧
      eStepCs k y sess st.A st.phi st.pi0 t =
        forwardCs k (sessY y sess s) st.A (sessPhi st.phi sess s)
          (pi0OrUniform k st.pi0) (t - sessStart sess s) ∧
      (∀ z, eStepBeta k y sess st.A st.phi st.pi0 t z =
        bwBeta k (sessLen sess s) (sessY y sess s) st.A (sessPhi st.phi sess s)
          (pi0OrUniform k st.pi0) (t - sessStart sess s) z)) ∧
    (∀ s, s < sess.length - 1 → ∀ (y₂ : List ℕ) (phi₂ : ℕ → ℕ → ℕ → ℚ),
      (∀ u, sessStart sess s ≤ u → u < sessStart sess (s + 1) →
        y₂.getD u 0 = y.getD u 0 ∧ ∀ z j, phi₂ u z j = st.phi u z j) →
      sessionLL lg k y₂ sess st.A phi₂ st.pi0 s =
        sessionLL lg k y sess st.A st.phi st.pi0 s) := by
  refine ⟨rfl, ?_, ?_⟩
  · intro s t hs hts htl
    refine ⟨?_, ?_, ?_⟩
    · intro z
      exact congrFun (stitched_apply sess _ _ hmono s t hs hts htl) z
    · exact stitched_apply sess _ _ hmono s t hs hts htl
    · intro z
      exact congrFun (stitched_apply sess _ _ hmono s t hs hts htl) z
  · intro s hs y₂ phi₂ hagree
    unfold sessionLL forwardLL
    apply Finset.sum_congr rfl
    intro t ht
    rw [Finset.mem_range] at ht
    have hlen : sessLen sess s = sessStart sess (s + 1) - sessStart sess s := rfl
    have hb : sessStart sess s < sessStart sess (s + 1) := hmono s (by omega)
    congr 1
    apply forwardCs_congr
    · intro u hu
      have h1 := hagree (sessStart sess s + u) (by omega) (by omega)
      unfold sessY
      exact h1.1
    · intro u hu z j
      have h1 := hagree (sessStart sess s + u) (by omega) (by omega)
      unfold sessPhi
      exact h1.2 z j

/-- Witness for C7 at a one-state, one-observation, single-session input. -/
theorem fit_session_estep_witness :
    (emStep trivialCollab id false 0 1 [0] (fun _ _ => 0) [0, 1] 1 false demoSt).1 =
      ∑ s ∈ Finset.range 1,
        forwardLL id (sessLen [0, 1] s) 1 (sessY [0] [0, 1] s) demoSt.A
          (sessPhi demoSt.phi [0, 1] s) (pi0OrUniform 1 demoSt.pi0) :=
  (fit_session_estep trivialCollab id false 0 1 [0] (fun _ _ => 0) [0, 1] 1 false demoSt
    (by
      intro u hu
      have hu0 : u = 0 := by simp at hu; omega
      subst hu0
      decide)).1

/-- C8 (amended): when fit reaches `maxiter` without the tolerance rule ever
firing it simply runs all `maxiter` iterations and returns the full trace
and the final parameters — it does NOT issue any warning, because the source
contains no warning mechanism at all. -/
theorem fit_nonconverged_returns (C : Collab) (lg : ℚ → ℚ) (hf : Bool) (gp : ℚ)
    (k : ℕ) (y : List ℕ) (x : ℕ → ℕ → ℚ) (A0 : ℕ → ℕ → ℚ) (w0 : ℕ → ℕ → ℕ → ℚ)
    (pi0 : Option (ℕ → ℚ)) (fitInit : Bool) (maxiter : ℕ) (tol : ℚ)
    (sessOpt : Option (List ℕ)) (B : ℕ)
    (hno : ∀ m, m < maxiter →
      ¬ stopAt (fitLLSeq C lg hf gp k y x A0 w0 pi0 fitInit sessOpt B) tol m) :
    fitIterCount C lg hf gp k y x A0 w0 pi0 fitInit maxiter tol sessOpt B = maxiter ∧
    (fitModel C lg hf gp k y x A0 w0 pi0 fitInit maxiter tol sessOpt B).1.length = maxiter ∧
    (fitModel C lg hf gp k y x A0 w0 pi0 fitInit maxiter tol sessOpt B).2.1 =
      stIter (emStep C lg hf gp k y x (sessOpt.getD [0, y.length]) B fitInit)
        (initSt C x A0 w0 pi0) maxiter ∧
    fitWarnings C lg hf gp k y x A0 w0 pi0 fitInit maxiter tol sessOpt B = [] := by
  have h := fitModel_run C lg hf gp k y x A0 w0 pi0 fitInit maxiter tol sessOpt B
  have hcnt := h.2.2.2.2.2.1 hno
  refine ⟨hcnt, h.1, ?_, rfl⟩
  have h3 := h.2.2.1
  rw [hcnt] at h3
  exact h3

/-- Witness for C8's amended statement at `maxiter = 3` (the rule needs
`n > 5`, so it cannot fire). -/
theorem fit_nonconverged_returns_witness :
    fitIterCount trivialCollab id false 0 1 [0] (fun _ _ => 0) (fun _ _ => 1)
      (fun _ _ _ => 0) none false 3 (-1) none 1 = 3 ∧
    fitWarnings trivialCollab id false 0 1 [0] (fun _ _ => 0) (fun _ _ => 1)
      (fun _ _ _ => 0) none false 3 (-1) none 1 = [] := by
  have h := fit_nonconverged_returns trivialCollab id false 0 1 [0] (fun _ _ => 0)
    (fun _ _ => 1) (fun _ _ _ => 0) none false 3 (-1) none 1
    (fun _ _ hstop => absurd hstop.1 (by omega))
  exact ⟨h.1, h.2.2.2⟩

/-- C8 counterexample: a concrete fit call that reaches `maxiter` without the
tolerance rule ever firing emits no `NonConvergedWarning` — the warning the
claim asserts does not exist in the code. -/
theorem fit_nonconverged_warning_cex :
    fitIterCount trivialCollab id false 0 1 [0] (fun _ _ => 0) (fun _ _ => 1)
      (fun _ _ _ => 0) none false 4 (-1) none 1 = 4 ∧
    FitWarning.nonConverged ∉ fitWarnings trivialCollab id false 0 1 [0] (fun _ _ => 0)
      (fun _ _ => 1) (fun _ _ _ => 0) none false 4 (-1) none 1 := by
  constructor
  · exact (fitModel_run trivialCollab id false 0 1 [0] (fun _ _ => 0) (fun _ _ => 1)
      (fun _ _ _ => 0) none false 4 (-1) none 1).2.2.2.2.2.1
      (fun _ _ hstop => absurd hstop.1 (by omega))
  · simp [fitWarnings]

/-- C9: `pi0` is changed only when `fit_init_states` is set — with it off,
one EM step maps `pi0` to itself and the `pi0` returned by fit equals the
caller's, while `A` and `w` still go through their M-step updates. -/
theorem fit_pi0_frame (C : Collab) (lg : ℚ → ℚ) (hf : Bool) (gp : ℚ) (k : ℕ)
    (y : List ℕ) (x : ℕ → ℕ → ℚ) (A0 : ℕ → ℕ → ℚ) (w0 : ℕ → ℕ → ℕ → ℚ)
    (pi0 : Option (ℕ → ℚ)) (maxiter : ℕ) (tol : ℚ) (sessOpt : Option (List ℕ))
    (B : ℕ) (st : EMSt) (sess : List ℕ) :
    ((emStep C lg hf gp k y x sess B false st).2.pi0 = st.pi0) ∧
    ((emStep C lg hf gp k y x sess B false st).2.A =
      C.updTrans y (eStepAlpha k y sess st.A st.phi st.pi0)
        (eStepBeta k y sess st.A st.phi st.pi0) (eStepCs k y sess st.A st.phi st.pi0)
        st.A st.phi) ∧
    ((emStep C lg hf gp k y x sess B false st).2.w =
      (updateObservations C.glmFit hf gp k y x st.w
        (eStepGammas k y sess st.A st.phi st.pi0 B)).1) ∧
    ((fitModel C lg hf gp k y x A0 w0 pi0 false maxiter tol sessOpt B).2.1.pi0 = pi0) := by
  refine ⟨rfl, rfl, rfl, ?_⟩
  have h := (fitModel_run C lg hf gp k y x A0 w0 pi0 false maxiter tol sessOpt B).2.2.1
  rw [h, stIter_pi0]
  rfl

/-- Witness for C9 at a concrete input. -/
theorem fit_pi0_frame_witness :
    (emStep trivialCollab id false 0 1 [0] (fun _ _ => 0) [0, 1] 1 false demoSt).2.pi0 =
      demoSt.pi0 :=
  (fit_pi0_frame trivialCollab id false 0 1 [0] (fun _ _ => 0) (fun _ _ => 1)
    (fun _ _ _ => 0) none 1 1 none 1 demoSt [0, 1]).1

end GLMHMMSpec
